import Mathlib

/-!
Verification of the Markdown ↔ Confluence Storage Format converter
(`internal/converter/markdown.go`, `internal/converter/storage.go`,
`internal/converter/confluence.go`).

Strings are modelled as `List Char` (Go strings are byte slices; all the
constants involved are ASCII, so a character-level model is byte-faithful).
Go library helpers from the `strings` package are transcribed directly.
Loops that are not structurally recursive (the scanning replacers behind
`strings.ReplaceAll` and `regexp.ReplaceAllString`, and the underscore
fix-point loop) are written with an explicit fuel argument initialised to
`length + 1`; every iteration consumes at least one character of the
remaining input, so this fuel is never exhausted (certified by the
sufficiency lemmas below), and the fuelled function computes exactly the
Go loop.
-/

/-- ASCII alphanumeric, the character class `[a-zA-Z0-9]` used by
`intraWordUnderscoreRegex` in storage.go. -/
def isAlnum (c : Char) : Bool :=
  ('a' ≤ c && c ≤ 'z') || ('A' ≤ c && c ≤ 'Z') || ('0' ≤ c && c ≤ '9')

/-- Whitespace as trimmed by Go `strings.TrimSpace` (`unicode.IsSpace`),
restricted to the ASCII range: space, \t, \n, \v, \f, \r. -/
def isGoSpace (c : Char) : Bool :=
  c = ' ' || c = '\t' || c = '\n' || c = '\x0b' || c = '\x0c' || c = '\r'

/-- Go `strings.TrimSpace`: drop whitespace from both ends. -/
def trimSpace (s : List Char) : List Char :=
  ((s.dropWhile isGoSpace).reverse.dropWhile isGoSpace).reverse

/-- Go `strings.TrimPrefix pat s`: remove `pat` from the front when present. -/
def dropPre (pat s : List Char) : List Char :=
  if pat.isPrefixOf s then s.drop pat.length else s

/-- Go `strings.TrimSuffix pat s`: remove `pat` from the back when present. -/
def dropSuf (pat s : List Char) : List Char :=
  if pat.isSuffixOf s then s.take (s.length - pat.length) else s

/-- Scanning loop of Go `strings.ReplaceAll pat rep`: replace each
leftmost non-overlapping occurrence of `pat`, scanning left to right.
`fuel` bounds the number of scan steps; each step consumes at least one
character, so the `s.length + 1` used by `replaceAll` is always enough.
The converter never calls `ReplaceAll` with an empty pattern; for an
empty pattern this model leaves the string unchanged. -/
def replaceAllF (pat rep : List Char) : Nat → List Char → List Char
  | 0, s => s
  | _ + 1, [] => []
  | fuel + 1, c :: t =>
    if pat ≠ [] && pat.isPrefixOf (c :: t) then
      rep ++ replaceAllF pat rep fuel ((c :: t).drop pat.length)
    else
      c :: replaceAllF pat rep fuel t

/-- Go `strings.ReplaceAll pat rep s`. -/
def replaceAll (pat rep s : List Char) : List Char :=
  replaceAllF pat rep (s.length + 1) s

/-- The backtick character. -/
def tick : Char := '\x60'

/-- ASCII letter, the class `[a-zA-Z]` of `codeBlockRegex`. -/
def isAsciiLetter (c : Char) : Bool :=
  ('a' ≤ c && c ≤ 'z') || ('A' ≤ c && c ≤ 'Z')

/-- Space or tab, the class `[ \t]` of `nestedListBlankLineRegex`. -/
def isSpTab (c : Char) : Bool := c = ' ' || c = '\t'

/-- ASCII digit, the class `\d`. -/
def isDigitCh (c : Char) : Bool := '0' ≤ c && c ≤ '9'

/-- Match three literal backticks, returning the rest of the input. -/
def matchTicks3 (s : List Char) : Option (List Char) :=
  match s with
  | a :: b :: c :: r => if a = tick ∧ b = tick ∧ c = tick then some r else none
  | _ => none

/-- Match the closing part `\n>? ?` ``` ` of `codeBlockRegex`
(storage.go: `"(?s)` ```[a-zA-Z]*\\n.*?\\n>? ?``` `"`).  Go regexp
tries the greedy optionals in the preference order `> ` ``` `,
`>` ``` `, ` ` ``` `, ` ``` `; since a backtick is neither `>` nor a
space, at most one alternative can apply to a given input, so the
backtracking search collapses to this disjoint first-character
dispatch. -/
def matchClose (s : List Char) : Option (List Char) :=
  match s with
  | '\n' :: '>' :: ' ' :: r2 => matchTicks3 r2
  | '\n' :: '>' :: r2 => matchTicks3 r2
  | '\n' :: ' ' :: r2 => matchTicks3 r2
  | '\n' :: r => matchTicks3 r
  | _ => none

/-- The lazy `.*?` of `codeBlockRegex` followed by its closing part:
try the close at the current position, then skip one content character
at a time (shortest-match-first, as Go's lazy quantifier does). -/
def lazyClose : List Char → Option (List Char)
  | [] => none
  | c :: t =>
    match matchClose (c :: t) with
    | some r => some r
    | none => lazyClose t

/-- Try to match `codeBlockRegex` at the head of `s`; on success return
the input remaining after the match.  The opening is three backticks,
then greedily `[a-zA-Z]*` (deterministic: a letter is never `\n`),
then a literal `\n`, then the lazy content and close. -/
def matchCodeBlock (s : List Char) : Option (List Char) :=
  match matchTicks3 s with
  | none => none
  | some r =>
    match r.dropWhile isAsciiLetter with
    | '\n' :: r2 => lazyClose r2
    | _ => none

/-- The characters of storage.go `tripleEscapeChars` = ``"*_`[(|"``. -/
def tripleEscapeChars : List Char := ['*', '_', tick, '[', '(', '|']

/-- The characters of storage.go `doubleEscapeChars` = ``"*_`[]#-+.!|()}<>"``. -/
def doubleEscapeChars : List Char :=
  ['*', '_', tick, '[', ']', '#', '-', '+', '.', '!', '|', '(', ')', '\x7d', '<', '>']

/-- storage.go `fixEscapesInText`: collapse `\\\X` to `\X` for each
triple-escape character, then `\\X` to `\X` for each double-escape
character, by successive `strings.ReplaceAll` calls. -/
def fixEscapesInText (text : List Char) : List Char :=
  let r1 := tripleEscapeChars.foldl
    (fun acc c => replaceAll ['\\', '\\', '\\', c] ['\\', c] acc) text
  doubleEscapeChars.foldl
    (fun acc c => replaceAll ['\\', '\\', c] ['\\', c] acc) r1

/-- Scanning loop of storage.go `fixOverEscaping`: find the successive
leftmost non-overlapping `codeBlockRegex` matches; text between matches
is passed through `fixEscapesInText` as one chunk, matched code blocks
are copied to the output verbatim.  `pending` holds the (reversed)
not-yet-processed plain text.  Fuel `length + 1` is always sufficient
since every step consumes at least one input character. -/
def fixOverEscapingF : Nat → List Char → List Char → List Char
  | 0, pending, s => fixEscapesInText (pending.reverse ++ s)
  | _ + 1, pending, [] => fixEscapesInText pending.reverse
  | fuel + 1, pending, c :: t =>
    match matchCodeBlock (c :: t) with
    | some rem =>
      fixEscapesInText pending.reverse ++ (c :: t).take ((c :: t).length - rem.length)
        ++ fixOverEscapingF fuel [] rem
    | none => fixOverEscapingF fuel (c :: pending) t

/-- storage.go `fixOverEscaping`. -/
def fixOverEscaping (s : List Char) : List Char :=
  fixOverEscapingF (s.length + 1) [] s

/-- One `ReplaceAllString` pass of `intraWordUnderscoreRegex`
(`([a-zA-Z0-9])\\_([a-zA-Z0-9])` with replacement `${1}_${2}`):
replace every leftmost non-overlapping match, continuing after the
matched region. -/
def underscoreStepF : Nat → List Char → List Char
  | 0, s => s
  | _ + 1, [] => []
  | fuel + 1, a :: x :: y :: b :: rest =>
    if x = '\\' ∧ y = '_' ∧ isAlnum a ∧ isAlnum b then
      a :: '_' :: b :: underscoreStepF fuel rest
    else a :: underscoreStepF fuel (x :: y :: b :: rest)
  | fuel + 1, a :: rest => a :: underscoreStepF fuel rest

/-- One `ReplaceAllString` pass of `intraWordUnderscoreRegex`. -/
def underscoreStep (s : List Char) : List Char :=
  underscoreStepF (s.length + 1) s

/-- `intraWordUnderscoreRegex.MatchString`: does any position start a
match of `([a-zA-Z0-9])\\_([a-zA-Z0-9])`? -/
def hasIntraWordEscUnderscoreF : Nat → List Char → Bool
  | 0, _ => false
  | _ + 1, [] => false
  | fuel + 1, a :: x :: y :: b :: rest =>
    (x = '\\' && y = '_' && isAlnum a && isAlnum b)
      || hasIntraWordEscUnderscoreF fuel (x :: y :: b :: rest)
  | fuel + 1, _ :: rest => hasIntraWordEscUnderscoreF fuel rest

/-- `intraWordUnderscoreRegex.MatchString s`. -/
def hasIntraWordEscUnderscore (s : List Char) : Bool :=
  hasIntraWordEscUnderscoreF (s.length + 1) s

/-- The `for intraWordUnderscoreRegex.MatchString(markdown)` loop of
`StorageToMarkdown` (storage.go lines 236–238): repeat `underscoreStep`
until no match remains.  Each pass removes at least one backslash, so
the loop runs at most `length` times and fuel `length + 1` is always
sufficient (see `fixUnderscores_no_match`). -/
def fixUnderscoresF : Nat → List Char → List Char
  | 0, s => s
  | fuel + 1, s =>
    if hasIntraWordEscUnderscore s then fixUnderscoresF fuel (underscoreStep s) else s

/-- The underscore-fixing pass of `StorageToMarkdown`. -/
def fixUnderscores (s : List Char) : List Char :=
  fixUnderscoresF (s.length + 1) s

/-- Try to match `nestedListBlankLineRegex`
(`(\n)([ \t]+)\n([ \t]+[-*]|[ \t]+\d+\.)`) at the head of `s`; on
success return the replacement `$1$3` (the blank line is dropped) and
the input remaining after the match.  All quantifiers are deterministic
here because the character classes are disjoint from what follows. -/
def matchNested (s : List Char) : Option (List Char × List Char) :=
  match s with
  | '\n' :: r =>
    let ws1 := r.takeWhile isSpTab
    if ws1 = [] then none else
    match r.drop ws1.length with
    | '\n' :: r2 =>
      let ws2 := r2.takeWhile isSpTab
      if ws2 = [] then none else
      match r2.drop ws2.length with
      | c :: r3 =>
        if c = '-' ∨ c = '*' then some ('\n' :: ws2 ++ [c], r3)
        else
          let ds := (c :: r3).takeWhile isDigitCh
          if ds = [] then none else
          match (c :: r3).drop ds.length with
          | '.' :: r4 => some ('\n' :: ws2 ++ ds ++ ['.'], r4)
          | _ => none
      | [] => none
    | _ => none
  | _ => none

/-- Scanning loop of `nestedListBlankLineRegex.ReplaceAllString`
(storage.go `fixNestedListSpacing`): replace each leftmost
non-overlapping match, continuing after the matched region. -/
def fixNestedListSpacingF : Nat → List Char → List Char
  | 0, s => s
  | _ + 1, [] => []
  | fuel + 1, c :: t =>
    match matchNested (c :: t) with
    | some (rep, rem) => rep ++ fixNestedListSpacingF fuel rem
    | none => c :: fixNestedListSpacingF fuel t

/-- storage.go `fixNestedListSpacing`. -/
def fixNestedListSpacing (s : List Char) : List Char :=
  fixNestedListSpacingF (s.length + 1) s

/-- The escape/spacing normalization stage of `StorageToMarkdown`
(storage.go lines 222–244): everything applied to the markdown string
after `html.UnescapeString` — the three checkbox `strings.ReplaceAll`
fixes, `fixOverEscaping`, the intra-word underscore loop, and
`fixNestedListSpacing`, in that order. -/
def normalizeStage (markdown : List Char) : List Char :=
  let m1 := replaceAll ("\\[ ]".toList) ("[ ]".toList) markdown
  let m2 := replaceAll ("\\[x]".toList) ("[x]".toList) m1
  let m3 := replaceAll ("\\[X]".toList) ("[x]".toList) m2
  let m4 := fixOverEscaping m3
  let m5 := fixUnderscores m4
  fixNestedListSpacing m5

/-- Table cell alignment (`extension/ast.Alignment`). -/
inductive Align where
  | alignNone
  | alignLeft
  | alignCenter
  | alignRight
deriving DecidableEq

/-- The goldmark AST node kinds handled by `ConfluenceRenderer.RegisterFuncs`
(confluence.go).  Text payloads are carried as `List Char`:
for code blocks `content` is the concatenation of the node's source
lines, exactly the bytes `writeLines` writes. -/
inductive Node where
  | document (children : List Node)
  | heading (level : Nat) (children : List Node)
  | paragraph (children : List Node)
  | textBlock (children : List Node)
  | blockquote (children : List Node)
  | list (ordered : Bool) (children : List Node)
  | listItem (children : List Node)
  | taskCheckBox (isChecked : Bool)
  | codeBlock (content : List Char)
  | fencedCodeBlock (language : Option (List Char)) (content : List Char)
  | htmlBlock (content : List Char)
  | thematicBreak
  | emphasis (level : Nat) (children : List Node)
  | codeSpan (content : List Char)
  | link (destination : List Char) (title : List Char) (children : List Node)
  | image (destination : List Char)
  | autoLink (url : List Char) (label : List Char)
  | rawHTML (content : List Char)
  | text (content : List Char) (hardBreak : Bool) (softBreak : Bool)
  | strNode (content : List Char)
  | table (children : List Node)
  | tableHeader (children : List Node)
  | tableRow (children : List Node)
  | tableCell (alignment : Align) (children : List Node)
  | strikethrough (children : List Node)

/-- The child list of a node (`FirstChild`/`NextSibling` iteration). -/
def nodeChildren : Node → List Node
  | .document cs => cs
  | .heading _ cs => cs
  | .paragraph cs => cs
  | .textBlock cs => cs
  | .blockquote cs => cs
  | .list _ cs => cs
  | .listItem cs => cs
  | .emphasis _ cs => cs
  | .link _ _ cs => cs
  | .table cs => cs
  | .tableHeader cs => cs
  | .tableRow cs => cs
  | .tableCell _ cs => cs
  | .strikethrough cs => cs
  | _ => []

/-- `child.Kind() == ast.KindListItem`. -/
def isListItem : Node → Bool
  | .listItem _ => true
  | _ => false

/-- `node.Kind() == extast.KindTaskCheckBox`. -/
def isTaskCheckBox : Node → Bool
  | .taskCheckBox _ => true
  | _ => false

/-- `node.Kind() == extast.KindTableHeader`. -/
def isTableHeader : Node → Bool
  | .tableHeader _ => true
  | _ => false

/-- confluence.go `isTaskList`: a list is a task list when some direct
`ListItem` child has a `TaskCheckBox` as a direct child or exactly one
level inside any of its children. -/
def isTaskList (node : Node) : Bool :=
  (nodeChildren node).any fun child =>
    isListItem child &&
      (nodeChildren child).any fun grandchild =>
        isTaskCheckBox grandchild || (nodeChildren grandchild).any isTaskCheckBox

/-- The checked flag of a node when it is a `TaskCheckBox`. -/
def checkBoxChecked : Node → Option Bool
  | .taskCheckBox b => some b
  | _ => none

/-- First direct `TaskCheckBox` child of a child list. -/
def firstDirectCheckBox : List Node → Option Bool
  | [] => none
  | c :: rest =>
    match checkBoxChecked c with
    | some b => some b
    | none => firstDirectCheckBox rest

/-- Search order of confluence.go `getTaskCheckBox`: for each child in
order, take it if it is a checkbox, otherwise its first direct checkbox
child; else continue with the next sibling. -/
def findCheckBox : List Node → Option Bool
  | [] => none
  | c :: rest =>
    match checkBoxChecked c with
    | some b => some b
    | none =>
      match firstDirectCheckBox (nodeChildren c) with
      | some b => some b
      | none => findCheckBox rest

/-- confluence.go `getTaskCheckBox`, reduced to the checked flag of the
checkbox it returns (`none` when no checkbox is found). -/
def getTaskCheckBox (listItem : Node) : Option Bool :=
  findCheckBox (nodeChildren listItem)

/-- goldmark `util.EscapeHTML` (external library): entity-escape the
HTML special characters in one pass. -/
def escapeHTMLChar (c : Char) : List Char :=
  if c = '&' then "&amp;".toList
  else if c = '<' then "&lt;".toList
  else if c = '>' then "&gt;".toList
  else if c = '"' then "&quot;".toList
  else [c]

/-- goldmark `util.EscapeHTML` (external library). -/
def escapeHTML (s : List Char) : List Char :=
  (s.map escapeHTMLChar).flatten

/-- goldmark `util.URLEscape` (external library), modelled as the
identity; no claim below depends on its behavior. -/
def urlEscape (s : List Char) : List Char := s

/-- The byte `"0123456"[level]` written by `renderHeading`; goldmark
heading levels are always 1–6. -/
def headingDigitChar (level : Nat) : Char := Char.ofNat (48 + level)

/-- Opening of the code structured-macro emitted by `renderCodeBlock`
and `renderFencedCodeBlock`, up to the language value. -/
def codeMacroPre : List Char :=
  "<ac:structured-macro ac:name=\"code\"><ac:parameter ac:name=\"language\">".toList

/-- Middle of the code structured-macro: closes the language parameter
and opens the CDATA plain-text body. -/
def codeMacroMid : List Char :=
  "</ac:parameter><ac:plain-text-body><![CDATA[".toList

/-- Closing of the code structured-macro. -/
def codeMacroPost : List Char :=
  "]]></ac:plain-text-body></ac:structured-macro>\n".toList

mutual

/-- The `ConfluenceRenderer` dispatch (confluence.go): render one node
given the stack `ps` of its ancestors (`ps.head?` is `node.Parent()`),
emitting the entering text, the rendered children, and the exiting
text, exactly as goldmark's walker sequences the registered functions. -/
def renderNode (ps : List Node) (n : Node) : List Char :=
  match n with
  | .document cs => renderChildren (n :: ps) cs
  | .heading level cs =>
    "<h".toList ++ [headingDigitChar level] ++ ">".toList
      ++ renderChildren (n :: ps) cs
      ++ "</h".toList ++ [headingDigitChar level] ++ ">\n".toList
  | .blockquote cs =>
    "<blockquote>\n".toList ++ renderChildren (n :: ps) cs ++ "</blockquote>\n".toList
  | .codeBlock content =>
    codeMacroPre ++ "none".toList ++ codeMacroMid ++ content ++ codeMacroPost
  | .fencedCodeBlock lang content =>
    codeMacroPre ++ (match lang with | some l => l | none => "none".toList)
      ++ codeMacroMid ++ content ++ codeMacroPost
  | .htmlBlock _ => "<!-- raw HTML omitted -->\n".toList
  | .list ordered cs =>
    if isTaskList n then
      "<ac:task-list>\n".toList ++ renderChildren (n :: ps) cs ++ "</ac:task-list>\n".toList
    else if ordered then
      "<ol>\n".toList ++ renderChildren (n :: ps) cs ++ "</ol>\n".toList
    else
      "<ul>\n".toList ++ renderChildren (n :: ps) cs ++ "</ul>\n".toList
  | .listItem cs =>
    match ps with
    | parent :: _ =>
      if isTaskList parent then
        "<ac:task>\n".toList
          ++ (if getTaskCheckBox n = some true then
                "<ac:task-status>complete</ac:task-status>\n".toList
              else
                "<ac:task-status>incomplete</ac:task-status>\n".toList)
          ++ "<ac:task-body>".toList ++ renderChildren (n :: ps) cs
          ++ "</ac:task-body>\n</ac:task>\n".toList
      else "<li>".toList ++ renderChildren (n :: ps) cs ++ "</li>\n".toList
    | [] => "<li>".toList ++ renderChildren (n :: ps) cs ++ "</li>\n".toList
  | .paragraph cs =>
    match ps with
    | parent :: rest =>
      if isListItem parent then
        match rest with
        | gp :: _ =>
          if isTaskList gp then renderChildren (n :: ps) cs
          else "<p>".toList ++ renderChildren (n :: ps) cs ++ "</p>\n".toList
        | [] => "<p>".toList ++ renderChildren (n :: ps) cs ++ "</p>\n".toList
      else "<p>".toList ++ renderChildren (n :: ps) cs ++ "</p>\n".toList
    | [] => "<p>".toList ++ renderChildren (n :: ps) cs ++ "</p>\n".toList
  | .textBlock cs => renderChildren (n :: ps) cs ++ "\n".toList
  | .thematicBreak => "<hr />\n".toList
  | .autoLink url label =>
    "<a href=\"".toList ++ escapeHTML (urlEscape url) ++ "\">".toList
      ++ escapeHTML label ++ "</a>".toList
  | .codeSpan content => "<code>".toList ++ content ++ "</code>".toList
  | .emphasis level cs =>
    (if level = 2 then "<strong>".toList else "<em>".toList)
      ++ renderChildren (n :: ps) cs
      ++ (if level = 2 then "</strong>".toList else "</em>".toList)
  | .image dest =>
    "<ac:image><ri:url ri:value=\"".toList ++ escapeHTML (urlEscape dest)
      ++ "\" /></ac:image>".toList
  | .link dest title cs =>
    "<a href=\"".toList ++ escapeHTML (urlEscape dest) ++ "\"".toList
      ++ (if title.length > 0 then " title=\"".toList ++ escapeHTML title ++ "\"".toList
          else [])
      ++ ">".toList ++ renderChildren (n :: ps) cs ++ "</a>".toList
  | .rawHTML _ => []
  | .text content hard soft =>
    escapeHTML content
      ++ (if hard then "<br />\n".toList else if soft then "\n".toList else [])
  | .strNode content => escapeHTML content
  | .table cs =>
    "<table><tbody>\n".toList ++ renderChildren (n :: ps) cs ++ "</tbody></table>\n".toList
  | .tableHeader cs => renderChildren (n :: ps) cs
  | .tableRow cs => "<tr>".toList ++ renderChildren (n :: ps) cs ++ "</tr>\n".toList
  | .tableCell alignment cs =>
    let tag := match ps with
      | parent :: _ => if isTableHeader parent then "th".toList else "td".toList
      | [] => "td".toList
    let attr := match alignment with
      | .alignNone => []
      | .alignLeft => " align=\"left\"".toList
      | .alignCenter => " align=\"center\"".toList
      | .alignRight => " align=\"right\"".toList
    "<".toList ++ tag ++ attr ++ ">".toList
      ++ renderChildren (n :: ps) cs ++ "</".toList ++ tag ++ ">".toList
  | .taskCheckBox _ => []
  | .strikethrough cs =>
    "<del>".toList ++ renderChildren (n :: ps) cs ++ "</del>".toList

/-- Render a list of sibling nodes in order, all with ancestor stack `ps`. -/
def renderChildren (ps : List Node) : List Node → List Char
  | [] => []
  | c :: rest => renderNode ps c ++ renderChildren ps rest

end

/-- markdown.go `MarkdownToStorage`: run the goldmark parse/convert step
(the external parser is the `parse` argument; rendering is
`renderNode`), and on failure fall back to returning the original
markdown unchanged. -/
def MarkdownToStorage (parse : List Char → Option Node) (markdown : List Char) : List Char :=
  match parse markdown with
  | some doc => renderNode [] doc
  | none => markdown

/-- The two `strings.ReplaceAll` lines of the code-macro handler
(storage.go lines 138–139): escape `<` and `>` in the code content as
`&lt;` and `&gt;` before embedding it in the HTML intermediate. -/
def escapeAngles (code : List Char) : List Char :=
  replaceAll ['>'] ("&gt;".toList) (replaceAll ['<'] ("&lt;".toList) code)

/-- The replacement built by the `codeMacroRegex.ReplaceAllStringFunc`
handler of `StorageToMarkdown` (storage.go lines 123–146) for a
recognized code macro with a CDATA body: `langMatch` is group 1 of
`languageRegex.FindStringSubmatch` over the captured parameters (`none`
when no language parameter is present), `code` is the CDATA content. -/
def codeMacroReplace (langMatch : Option (List Char)) (code : List Char) : List Char :=
  let language := match langMatch with
    | some v => trimSpace v
    | none => []
  let code2 := escapeAngles code
  if language ≠ [] then
    "<pre><code class=\"language-".toList ++ language ++ "\">".toList
      ++ code2 ++ "</code></pre>".toList
  else
    "<pre><code>".toList ++ code2 ++ "</code></pre>".toList

/-- The replacement built by the `emptyCodeMacroRegex.ReplaceAllStringFunc`
handler of `StorageToMarkdown` (storage.go lines 149–167) for a
recognized code macro without a body. -/
def emptyCodeMacroReplace (langMatch : Option (List Char)) : List Char :=
  let language := match langMatch with
    | some v => trimSpace v
    | none => []
  if language ≠ [] then
    "<pre><code class=\"language-".toList ++ language ++ "\"></code></pre>".toList
  else
    "<pre><code></code></pre>".toList

/-- The `<li>` line built for one task by the `taskListRegex` handler of
`StorageToMarkdown` (storage.go lines 183–200): `status` and `body` are
groups 1 and 2 of a `taskRegex` match. -/
def taskItemReplace (status body : List Char) : List Char :=
  let st := trimSpace status
  let b := trimSpace (dropSuf ("</p>".toList) (dropPre ("<p>".toList) (trimSpace body)))
  if st = "complete".toList then
    "<li>[x] ".toList ++ b ++ "</li>\n".toList
  else
    "<li>[ ] ".toList ++ b ++ "</li>\n".toList

/-- The full replacement built by the `taskListRegex` handler
(storage.go lines 170–203): a `<ul>` holding one `<li>` per `taskRegex`
match of the task-list content. -/
def taskListReplace (tasks : List (List Char × List Char)) : List Char :=
  "<ul>\n".toList ++ (tasks.map fun p => taskItemReplace p.1 p.2).flatten ++ "</ul>".toList

/-- The task-list classification exactly as worded by the spec
(section 4.1): some direct `ListItem` child contains a `TaskCheckBox`
either directly or nested one level inside a paragraph/text-block
child.  Used to compare the spec's wording against `isTaskList`. -/
def specIsTaskList (n : Node) : Bool :=
  (nodeChildren n).any fun child =>
    isListItem child &&
      (nodeChildren child).any fun grandchild =>
        isTaskCheckBox grandchild
          || ((match grandchild with
               | .paragraph _ => true
               | .textBlock _ => true
               | _ => false)
              && (nodeChildren grandchild).any isTaskCheckBox)

/-- The task-list classification of the amended claim C4, as a
predicate: some direct `ListItem` child has a `TaskCheckBox` as a
direct child or exactly one level inside any of its child nodes. -/
def AmendedTaskList (n : Node) : Prop :=
  ∃ item ∈ nodeChildren n, isListItem item = true ∧
    ∃ gc ∈ nodeChildren item,
      isTaskCheckBox gc = true ∨ ∃ ggc ∈ nodeChildren gc, isTaskCheckBox ggc = true

/-- C1: `MarkdownToStorage` is a total function on strings (it is a
plain Lean function into `List Char`, with no failure channel), and
whenever the internal Markdown parse/convert step fails it returns the
input string unchanged. -/
theorem C1_markdownToStorage_total_fallback
    (parse : List Char → Option Node) (markdown : List Char)
    (h : parse markdown = none) :
    MarkdownToStorage parse markdown = markdown := by
  simp [MarkdownToStorage, h]

theorem C1_markdownToStorage_total_fallback_witness :
    (fun _ : List Char => (none : Option Node)) ("# hi".toList) = none
      ∧ MarkdownToStorage (fun _ => none) ("# hi".toList) = "# hi".toList :=
  ⟨rfl, C1_markdownToStorage_total_fallback (fun _ => none) ("# hi".toList) rfl⟩

/-- C2: fenced and indented code blocks render as a code
structured-macro; the language parameter is the literal string `none`
when the block carries no language, and the block's source bytes appear
byte-for-byte between `<![CDATA[` (the tail of `codeMacroMid`) and
`]]>` (the head of `codeMacroPost`), with no escaping applied. -/
theorem C2_codeBlock_verbatim_cdata
    (ps : List Node) (lang : Option (List Char)) (content : List Char) :
    renderNode ps (.fencedCodeBlock lang content)
        = codeMacroPre ++ (match lang with | some l => l | none => "none".toList)
            ++ codeMacroMid ++ content ++ codeMacroPost
      ∧ renderNode ps (.codeBlock content)
        = codeMacroPre ++ "none".toList ++ codeMacroMid ++ content ++ codeMacroPost := by
  constructor
  · cases lang <;> simp [renderNode]
  · simp [renderNode]

/-- C8: the forward renderer never emits raw HTML as live markup: a
raw inline HTML node contributes nothing to the output, and an HTML
block is replaced by the inert comment `<!-- raw HTML omitted -->`,
whatever its content. -/
theorem C8_raw_html_inert (ps : List Node) (content : List Char) :
    renderNode ps (.rawHTML content) = []
      ∧ renderNode ps (.htmlBlock content) = "<!-- raw HTML omitted -->\n".toList := by
  constructor <;> simp [renderNode]

/-- C5: a list item rendered under a task-list parent becomes an
`<ac:task>` whose `<ac:task-status>` is `complete` exactly when its
checkbox is found and checked, and `incomplete` otherwise; and a
paragraph that is a child of such a task-list item is rendered without
`<p>` wrapping. -/
theorem C5_task_item_status_and_no_p
    (ps : List Node) (parent : Node) (items body : List Node)
    (h : isTaskList parent = true) :
    renderNode (parent :: ps) (.listItem items)
        = "<ac:task>\n".toList
            ++ (if getTaskCheckBox (.listItem items) = some true then
                  "<ac:task-status>complete</ac:task-status>\n".toList
                else "<ac:task-status>incomplete</ac:task-status>\n".toList)
            ++ "<ac:task-body>".toList
            ++ renderChildren (.listItem items :: parent :: ps) items
            ++ "</ac:task-body>\n</ac:task>\n".toList
      ∧ renderNode (.listItem items :: parent :: ps) (.paragraph body)
        = renderChildren (.paragraph body :: .listItem items :: parent :: ps) body := by
  constructor
  · simp [renderNode, h]
  · simp [renderNode, isListItem, h]

theorem C5_task_item_status_and_no_p_witness :
    isTaskList (Node.list false [Node.listItem [Node.textBlock [Node.taskCheckBox true]]]) = true
      ∧ (renderNode [Node.list false [Node.listItem [Node.textBlock [Node.taskCheckBox true]]]]
            (.listItem [Node.textBlock [Node.taskCheckBox true]])
          = "<ac:task>\n".toList
              ++ (if getTaskCheckBox (.listItem [Node.textBlock [Node.taskCheckBox true]]) = some true then
                    "<ac:task-status>complete</ac:task-status>\n".toList
                  else "<ac:task-status>incomplete</ac:task-status>\n".toList)
              ++ "<ac:task-body>".toList
              ++ renderChildren
                  [Node.listItem [Node.textBlock [Node.taskCheckBox true]],
                   Node.list false [Node.listItem [Node.textBlock [Node.taskCheckBox true]]]]
                  [Node.textBlock [Node.taskCheckBox true]]
              ++ "</ac:task-body>\n</ac:task>\n".toList
        ∧ renderNode
            [Node.listItem [Node.textBlock [Node.taskCheckBox true]],
             Node.list false [Node.listItem [Node.textBlock [Node.taskCheckBox true]]]]
            (.paragraph [])
          = renderChildren
              [Node.paragraph [],
               Node.listItem [Node.textBlock [Node.taskCheckBox true]],
               Node.list false [Node.listItem [Node.textBlock [Node.taskCheckBox true]]]]
              []) :=
  ⟨by decide,
   C5_task_item_status_and_no_p []
     (Node.list false [Node.listItem [Node.textBlock [Node.taskCheckBox true]]])
     [Node.textBlock [Node.taskCheckBox true]] [] (by decide)⟩

/-- C10: in a list classified as a task list, a list item in which no
`TaskCheckBox` is found (neither directly nor one level inside a child)
is still rendered as an `<ac:task>`, with status `incomplete`. -/
theorem C10_task_item_without_checkbox_incomplete
    (ps : List Node) (parent : Node) (items : List Node)
    (h : isTaskList parent = true)
    (hcb : getTaskCheckBox (.listItem items) = none) :
    renderNode (parent :: ps) (.listItem items)
      = "<ac:task>\n".toList
          ++ "<ac:task-status>incomplete</ac:task-status>\n".toList
          ++ "<ac:task-body>".toList
          ++ renderChildren (.listItem items :: parent :: ps) items
          ++ "</ac:task-body>\n</ac:task>\n".toList := by
  simp [renderNode, h, hcb]

theorem C10_task_item_without_checkbox_incomplete_witness :
    isTaskList (Node.list false
        [Node.listItem [Node.textBlock [Node.taskCheckBox true]],
         Node.listItem [Node.textBlock [Node.strNode ("b".toList)]]]) = true
      ∧ getTaskCheckBox (.listItem [Node.textBlock [Node.strNode ("b".toList)]]) = none
      ∧ renderNode
          [Node.list false
            [Node.listItem [Node.textBlock [Node.taskCheckBox true]],
             Node.listItem [Node.textBlock [Node.strNode ("b".toList)]]]]
          (.listItem [Node.textBlock [Node.strNode ("b".toList)]])
        = "<ac:task>\n".toList
            ++ "<ac:task-status>incomplete</ac:task-status>\n".toList
            ++ "<ac:task-body>".toList
            ++ renderChildren
                [Node.listItem [Node.textBlock [Node.strNode ("b".toList)]],
                 Node.list false
                   [Node.listItem [Node.textBlock [Node.taskCheckBox true]],
                    Node.listItem [Node.textBlock [Node.strNode ("b".toList)]]]]
                [Node.textBlock [Node.strNode ("b".toList)]]
            ++ "</ac:task-body>\n</ac:task>\n".toList :=
  ⟨by decide, by decide,
   C10_task_item_without_checkbox_incomplete []
     (Node.list false
       [Node.listItem [Node.textBlock [Node.taskCheckBox true]],
        Node.listItem [Node.textBlock [Node.strNode ("b".toList)]]])
     [Node.textBlock [Node.strNode ("b".toList)]] (by decide) (by decide)⟩

/-- C4 counterexample: the claim restricts the one-level search to
paragraph/text-block children, but `isTaskList` accepts a checkbox one
level inside any child node.  A list whose item holds a checkbox
directly inside a blockquote is classified as a task list by the code
while the claim's characterization (`specIsTaskList`, transcribed from
the spec's wording) rejects it. -/
theorem C4_counterexample_blockquote_checkbox :
    isTaskList (Node.list false [Node.listItem [Node.blockquote [Node.taskCheckBox false]]]) = true
      ∧ specIsTaskList (Node.list false [Node.listItem [Node.blockquote [Node.taskCheckBox false]]])
          = false := by
  decide

/-- C4 (amended): a list is classified as a task list iff some direct
`ListItem` child contains a `TaskCheckBox` either as a direct child or
nested exactly one level inside any child node of the item; the
classification reads only the list's own first two levels, so it is
computed per list and not inherited. -/
theorem C4_taskList_classification (n : Node) :
    isTaskList n = true ↔ AmendedTaskList n := by
  simp [isTaskList, AmendedTaskList, List.any_eq_true, Bool.and_eq_true, Bool.or_eq_true]

theorem notMem_replaceAllF_single (c : Char) (rep : List Char) (hc : c ∉ rep) :
    ∀ fuel s, s.length < fuel → c ∉ replaceAllF [c] rep fuel s := by
  intro fuel
  induction fuel with
  | zero => intro s h; omega
  | succ n ih =>
    intro s h
    match s with
    | [] => simp [replaceAllF]
    | d :: t =>
      simp only [List.length_cons] at h
      by_cases hd : c = d
      · subst hd
        have hpre : ([c].isPrefixOf (c :: t)) = true := by
          simp [List.isPrefixOf]
        simp only [replaceAllF, hpre]
        intro hmem
        simp only [ne_eq, List.cons_ne_nil, not_false_eq_true, Bool.and_self,
          decide_True, if_true, List.drop_succ_cons, List.drop_zero,
          List.mem_append, if_pos] at hmem
        rcases hmem with hmem | hmem
        · exact hc hmem
        · exact ih t (by omega) hmem
      · have hpre : ([c].isPrefixOf (d :: t)) = false := by
          simp [List.isPrefixOf, hd]
        simp only [replaceAllF, hpre, Bool.and_false, Bool.false_eq_true, if_false,
          List.mem_cons, not_or]
        exact ⟨fun hcd => hd hcd, ih t (by omega)⟩

theorem notMem_replaceAllF_preserve (c : Char) (pat rep : List Char) (hc : c ∉ rep) :
    ∀ fuel s, c ∉ s → c ∉ replaceAllF pat rep fuel s := by
  intro fuel
  induction fuel with
  | zero => intro s hs; simpa [replaceAllF] using hs
  | succ n ih =>
    intro s hs
    match s with
    | [] => simp [replaceAllF]
    | d :: t =>
      have hstep : replaceAllF pat rep (n + 1) (d :: t)
          = if (pat ≠ [] && pat.isPrefixOf (d :: t)) = true then
              rep ++ replaceAllF pat rep n ((d :: t).drop pat.length)
            else d :: replaceAllF pat rep n t := rfl
      by_cases hp : (pat ≠ [] && pat.isPrefixOf (d :: t)) = true
      · rw [hstep, if_pos hp]
        intro hmem
        rcases List.mem_append.mp hmem with hmem | hmem
        · exact hc hmem
        · exact ih _ (fun hm => hs (List.drop_subset _ _ hm)) hmem
      · rw [hstep, if_neg hp]
        simp only [List.mem_cons, not_or] at hs ⊢
        exact ⟨hs.1, ih t hs.2⟩

theorem lt_notMem_escapeAngles (code : List Char) : '<' ∉ escapeAngles code := by
  unfold escapeAngles replaceAll
  apply notMem_replaceAllF_preserve
  · decide
  · apply notMem_replaceAllF_single
    · decide
    · omega

theorem gt_notMem_escapeAngles (code : List Char) : '>' ∉ escapeAngles code := by
  unfold escapeAngles replaceAll
  apply notMem_replaceAllF_single
  · decide
  · omega

theorem trimSpace_eq_nil_iff (v : List Char) :
    trimSpace v = [] ↔ v.all isGoSpace = true := by
  unfold trimSpace
  rw [List.reverse_eq_nil_iff, List.dropWhile_eq_nil_iff, List.all_eq_true]
  constructor
  · intro h x hx
    rcases List.mem_append.mp
        ((List.takeWhile_append_dropWhile isGoSpace v) ▸ hx) with h1 | h1
    · exact List.mem_takeWhile_imp h1
    · exact h x (List.mem_reverse.mpr h1)
  · intro h x hx
    exact h x ((List.dropWhile_sublist _).subset (List.mem_reverse.mp hx))

/-- C6: a recognized code macro, with or without a body, rewrites to
`<pre><code class="language-X">…</code></pre>`, where the class
attribute is omitted exactly when no language parameter was present or
its value was empty or whitespace-only, and every `<` and `>` of the
code body is replaced by `&lt;`/`&gt;` before embedding (the embedded
body contains no `<` or `>` at all). -/
theorem C6_code_macro_rewrite (lm : Option (List Char)) (code : List Char) :
    codeMacroReplace lm code
        = (if (match lm with | some v => trimSpace v | none => []) = [] then
            "<pre><code>".toList ++ escapeAngles code ++ "</code></pre>".toList
          else
            "<pre><code class=\"language-".toList
              ++ (match lm with | some v => trimSpace v | none => [])
              ++ "\">".toList ++ escapeAngles code ++ "</code></pre>".toList)
      ∧ emptyCodeMacroReplace lm
        = (if (match lm with | some v => trimSpace v | none => []) = [] then
            "<pre><code></code></pre>".toList
          else
            "<pre><code class=\"language-".toList
              ++ (match lm with | some v => trimSpace v | none => [])
              ++ "\"></code></pre>".toList)
      ∧ ((match lm with | some v => trimSpace v | none => []) = []
          ↔ lm = none ∨ ∃ v, lm = some v ∧ v.all isGoSpace = true)
      ∧ '<' ∉ escapeAngles code ∧ '>' ∉ escapeAngles code := by
  refine ⟨?_, ?_, ?_, lt_notMem_escapeAngles code, gt_notMem_escapeAngles code⟩
  · cases lm with
    | none => simp [codeMacroReplace]
    | some v =>
      by_cases h : trimSpace v = []
      · simp [codeMacroReplace, h]
      · simp [codeMacroReplace, h]
  · cases lm with
    | none => simp [emptyCodeMacroReplace]
    | some v =>
      by_cases h : trimSpace v = []
      · simp [emptyCodeMacroReplace, h]
      · simp [emptyCodeMacroReplace, h]
  · cases lm with
    | none => simp
    | some v => simp [trimSpace_eq_nil_iff]

/-- C7 counterexample: the claim maps a task to `[x]` only when its
status is exactly `complete`, but the handler trims the captured status
first (storage.go line 187), so the status value `" complete"` — not
exactly `"complete"` — also produces an `[x]` item. -/
theorem C7_counterexample_trimmed_status :
    (" complete".toList ≠ "complete".toList)
      ∧ taskItemReplace (" complete".toList) ("a".toList) = "<li>[x] a</li>\n".toList := by
  refine ⟨by decide, by decide⟩

/-- C7 (amended): a recognized task rewrites to the literal item
`<li>[x] body</li>` when its status trims (surrounding whitespace) to
`complete` and `<li>[ ] body</li>` for any other value, with the body
whitespace-trimmed and one leading `<p>`/trailing `</p>` wrapper
stripped; the whole task list becomes a generic `<ul>` holding these
items. -/
theorem C7_task_list_rewrite (status body : List Char)
    (tasks : List (List Char × List Char)) :
    taskItemReplace status body
        = (if trimSpace status = "complete".toList then "<li>[x] ".toList
           else "<li>[ ] ".toList)
            ++ (trimSpace (dropSuf ("</p>".toList) (dropPre ("<p>".toList) (trimSpace body)))
                ++ "</li>\n".toList)
      ∧ (List.take 8 (taskItemReplace status body) = "<li>[x] ".toList
          ↔ trimSpace status = "complete".toList)
      ∧ taskListReplace tasks
        = "<ul>\n".toList ++ (tasks.map fun p => taskItemReplace p.1 p.2).flatten
            ++ "</ul>".toList := by
  have hb : taskItemReplace status body
      = (if trimSpace status = "complete".toList then "<li>[x] ".toList
         else "<li>[ ] ".toList)
          ++ (trimSpace (dropSuf ("</p>".toList) (dropPre ("<p>".toList) (trimSpace body)))
              ++ "</li>\n".toList) := by
    simp only [taskItemReplace]
    by_cases h : trimSpace status = "complete".toList
    · rw [if_pos h, if_pos h]; simp [List.append_assoc]
    · rw [if_neg h, if_neg h]; simp [List.append_assoc]
  refine ⟨hb, ?_, rfl⟩
  rw [hb]
  by_cases h : trimSpace status = "complete".toList
  · rw [if_pos h, List.take_left' (by decide)]
    simp [h]
  · rw [if_neg h, List.take_left' (by decide)]
    constructor
    · intro habs; exact absurd habs (by decide)
    · intro hc; exact absurd hc h

theorem hasIntraWordEscUnderscoreF_nil (fuel : Nat) :
    hasIntraWordEscUnderscoreF fuel [] = false := by
  cases fuel <;> rfl

theorem underscoreStepF_length_le :
    ∀ fuel s, (underscoreStepF fuel s).length ≤ s.length := by
  intro fuel
  induction fuel with
  | zero => intro s; exact Nat.le_refl _
  | succ n ih =>
    intro s
    rcases s with _ | ⟨a, _ | ⟨x, _ | ⟨y, _ | ⟨b, rest⟩⟩⟩⟩
    · simp [underscoreStepF]
    · have h : underscoreStepF (n + 1) [a] = a :: underscoreStepF n [] := rfl
      rw [h]; simpa using ih []
    · have h : underscoreStepF (n + 1) [a, x] = a :: underscoreStepF n [x] := rfl
      rw [h]; simpa using ih [x]
    · have h : underscoreStepF (n + 1) [a, x, y] = a :: underscoreStepF n [x, y] := rfl
      rw [h]; simpa using ih [x, y]
    · have h : underscoreStepF (n + 1) (a :: x :: y :: b :: rest)
          = if x = '\\' ∧ y = '_' ∧ isAlnum a ∧ isAlnum b then
              a :: '_' :: b :: underscoreStepF n rest
            else a :: underscoreStepF n (x :: y :: b :: rest) := rfl
      rw [h]
      by_cases hg : x = '\\' ∧ y = '_' ∧ isAlnum a ∧ isAlnum b
      · rw [if_pos hg]
        have := ih rest
        simp only [List.length_cons]
        omega
      · rw [if_neg hg]
        have := ih (x :: y :: b :: rest)
        simp only [List.length_cons] at this ⊢
        omega

theorem hasIntraWordEscUnderscoreF_short :
    ∀ fuel s, s.length ≤ 3 → hasIntraWordEscUnderscoreF fuel s = false := by
  intro fuel
  induction fuel with
  | zero => intro s _; rfl
  | succ n ih =>
    intro s hs
    rcases s with _ | ⟨a, _ | ⟨x, _ | ⟨y, _ | ⟨b, rest⟩⟩⟩⟩
    · rfl
    · show hasIntraWordEscUnderscoreF n [] = false
      exact hasIntraWordEscUnderscoreF_nil n
    · show hasIntraWordEscUnderscoreF n [x] = false
      exact ih [x] (by simp)
    · show hasIntraWordEscUnderscoreF n [x, y] = false
      exact ih [x, y] (by simp)
    · simp at hs

theorem underscoreStepF_decrease :
    ∀ fuel1 fuel2 s, s.length < fuel1 → s.length < fuel2 →
      hasIntraWordEscUnderscoreF fuel1 s = true →
      (underscoreStepF fuel2 s).length < s.length := by
  intro fuel1
  induction fuel1 with
  | zero => intro fuel2 s h1; omega
  | succ n ih =>
    intro fuel2 s h1 h2 hhas
    rcases s with _ | ⟨a, _ | ⟨x, _ | ⟨y, _ | ⟨b, rest⟩⟩⟩⟩
    · simp [hasIntraWordEscUnderscoreF] at hhas
    · rw [show hasIntraWordEscUnderscoreF (n + 1) [a]
          = hasIntraWordEscUnderscoreF n [] from rfl,
        hasIntraWordEscUnderscoreF_nil] at hhas
      exact absurd hhas (by simp)
    · rw [show hasIntraWordEscUnderscoreF (n + 1) [a, x]
          = hasIntraWordEscUnderscoreF n [x] from rfl,
        hasIntraWordEscUnderscoreF_short n [x] (by simp)] at hhas
      exact absurd hhas (by simp)
    · rw [show hasIntraWordEscUnderscoreF (n + 1) [a, x, y]
          = hasIntraWordEscUnderscoreF n [x, y] from rfl,
        hasIntraWordEscUnderscoreF_short n [x, y] (by simp)] at hhas
      exact absurd hhas (by simp)
    · match fuel2, h2 with
      | m + 1, h2 =>
        have hstep : underscoreStepF (m + 1) (a :: x :: y :: b :: rest)
            = if x = '\\' ∧ y = '_' ∧ isAlnum a ∧ isAlnum b then
                a :: '_' :: b :: underscoreStepF m rest
              else a :: underscoreStepF m (x :: y :: b :: rest) := rfl
        by_cases hg : x = '\\' ∧ y = '_' ∧ isAlnum a ∧ isAlnum b
        · rw [hstep, if_pos hg]
          have := underscoreStepF_length_le m rest
          simp only [List.length_cons]
          omega
        · rw [hstep, if_neg hg]
          have hhas2 : hasIntraWordEscUnderscoreF n (x :: y :: b :: rest) = true := by
            rw [show hasIntraWordEscUnderscoreF (n + 1) (a :: x :: y :: b :: rest)
                = ((x = '\\' && y = '_' && isAlnum a && isAlnum b)
                    || hasIntraWordEscUnderscoreF n (x :: y :: b :: rest)) from rfl] at hhas
            have hgb : (x = '\\' && y = '_' && isAlnum a && isAlnum b) = false := by
              by_contra hne
              have ht : (x = '\\' && y = '_' && isAlnum a && isAlnum b) = true := by
                revert hne
                cases (x = '\\' && y = '_' && isAlnum a && isAlnum b) <;> simp
              apply hg
              simp only [Bool.and_eq_true, decide_eq_true_eq] at ht
              exact ⟨ht.1.1.1, ht.1.1.2, ht.1.2, ht.2⟩
            rw [hgb] at hhas
            simpa using hhas
          have hlt : (underscoreStepF m (x :: y :: b :: rest)).length
              < (x :: y :: b :: rest).length := by
            apply ih m (x :: y :: b :: rest)
            · simp only [List.length_cons] at h1 ⊢; omega
            · simp only [List.length_cons] at h2 ⊢; omega
            · exact hhas2
          simp only [List.length_cons] at hlt ⊢
          omega

theorem underscoreStep_decrease (s : List Char)
    (h : hasIntraWordEscUnderscore s = true) :
    (underscoreStep s).length < s.length :=
  underscoreStepF_decrease (s.length + 1) (s.length + 1) s (by omega) (by omega) h

theorem fixUnderscoresF_no_match :
    ∀ fuel s, s.length < fuel →
      hasIntraWordEscUnderscore (fixUnderscoresF fuel s) = false := by
  intro fuel
  induction fuel with
  | zero => intro s h; omega
  | succ n ih =>
    intro s h
    show hasIntraWordEscUnderscore
        (if hasIntraWordEscUnderscore s then fixUnderscoresF n (underscoreStep s) else s)
      = false
    by_cases hh : hasIntraWordEscUnderscore s = true
    · rw [if_pos hh]
      have := underscoreStep_decrease s hh
      exact ih _ (by omega)
    · rw [if_neg (by simpa using hh)]
      simpa using hh

theorem fixUnderscores_no_match (s : List Char) :
    hasIntraWordEscUnderscore (fixUnderscores s) = false :=
  fixUnderscoresF_no_match (s.length + 1) s (by omega)

theorem fixUnderscoresF_fuel_irrelevant :
    ∀ fuel s, s.length < fuel → fixUnderscoresF fuel s = fixUnderscores s := by
  intro fuel
  induction fuel using Nat.strong_induction_on with
  | _ fuel ih =>
    intro s h
    match fuel, h with
    | f + 1, h =>
      show (if hasIntraWordEscUnderscore s then fixUnderscoresF f (underscoreStep s) else s)
          = fixUnderscores s
      unfold fixUnderscores
      show _ = (if hasIntraWordEscUnderscore s then
          fixUnderscoresF s.length (underscoreStep s) else s)
      by_cases hh : hasIntraWordEscUnderscore s = true
      · rw [if_pos hh, if_pos hh]
        have hdec := underscoreStep_decrease s hh
        have h1 : fixUnderscoresF f (underscoreStep s) = fixUnderscores (underscoreStep s) := by
          rcases Nat.eq_or_lt_of_le (Nat.succ_le_of_lt h) with heq | hlt
          · exact ih f (by omega) _ (by omega)
          · exact ih f (by omega) _ (by omega)
        have h2 : fixUnderscoresF s.length (underscoreStep s)
            = fixUnderscores (underscoreStep s) :=
          ih s.length (by omega) _ (by omega)
        rw [h1, h2]
      · rw [if_neg (by simpa using hh), if_neg (by simpa using hh)]

theorem hasIntraWordEscUnderscoreF_cons (n : Nat) (c : Char) (t : List Char)
    (h4 : 3 ≤ t.length) (ht : hasIntraWordEscUnderscoreF n t = true) :
    hasIntraWordEscUnderscoreF (n + 1) (c :: t) = true := by
  rcases t with _ | ⟨u1, _ | ⟨u2, _ | ⟨u3, t4⟩⟩⟩
  · simp at h4
  · simp at h4
  · simp at h4
  · show ((u1 = '\\' && u2 = '_' && isAlnum c && isAlnum u3)
        || hasIntraWordEscUnderscoreF n (u1 :: u2 :: u3 :: t4)) = true
    rw [ht]
    simp

theorem hasIntraWordEscUnderscoreF_append :
    ∀ fuel l (a b : Char) r,
      (l ++ a :: '\\' :: '_' :: b :: r).length < fuel →
      isAlnum a = true → isAlnum b = true →
      hasIntraWordEscUnderscoreF fuel (l ++ a :: '\\' :: '_' :: b :: r) = true := by
  intro fuel
  induction fuel with
  | zero => intro l a b r h; omega
  | succ n ih =>
    intro l a b r h ha hb
    rcases l with _ | ⟨c, l2⟩
    · show (('\\' = '\\' && '_' = '_' && isAlnum a && isAlnum b)
          || hasIntraWordEscUnderscoreF n ('\\' :: '_' :: b :: r)) = true
      simp [ha, hb]
    · exact hasIntraWordEscUnderscoreF_cons n c (l2 ++ a :: '\\' :: '_' :: b :: r)
        (by simp only [List.length_append, List.length_cons]; omega)
        (ih l2 a b r
          (by simp only [List.length_cons, List.length_append] at h ⊢; omega) ha hb)

/-- C9: the underscore-fixing loop of `StorageToMarkdown` terminates on
every input — the loop exits with the same result for any sufficiently
large iteration bound, at most `length` passes — and its result
contains no backslash-escaped underscore between two alphanumeric
characters: no decomposition `l ++ [a, \\, _, b] ++ r` with `a`, `b`
alphanumeric exists, however many escaped underscores one identifier
held. -/
theorem C9_underscore_fix_reaches_fixpoint (s l r : List Char) (a b : Char)
    (ha : isAlnum a = true) (hb : isAlnum b = true) :
    (∀ fuel, s.length < fuel → fixUnderscoresF fuel s = fixUnderscores s)
      ∧ fixUnderscores s ≠ l ++ a :: '\\' :: '_' :: b :: r := by
  constructor
  · intro fuel hf
    exact fixUnderscoresF_fuel_irrelevant fuel s hf
  · intro heq
    have h1 := fixUnderscores_no_match s
    rw [heq] at h1
    have h2 := hasIntraWordEscUnderscoreF_append
      ((l ++ a :: '\\' :: '_' :: b :: r).length + 1) l a b r (by omega) ha hb
    unfold hasIntraWordEscUnderscore at h1
    have := h2.symm.trans h1
    simp at this

theorem C9_underscore_fix_reaches_fixpoint_witness :
    isAlnum 'a' = true ∧ isAlnum 'b' = true
      ∧ ((∀ fuel, ("a\\_b".toList).length < fuel →
            fixUnderscoresF fuel ("a\\_b".toList) = fixUnderscores ("a\\_b".toList))
          ∧ fixUnderscores ("a\\_b".toList) ≠ [] ++ 'a' :: '\\' :: '_' :: 'b' :: []) :=
  ⟨by decide, by decide,
   C9_underscore_fix_reaches_fixpoint ("a\\_b".toList) [] [] 'a' 'b' (by decide) (by decide)⟩

theorem matchTicks3_eq (s r : List Char) (h : matchTicks3 s = some r) :
    s = tick :: tick :: tick :: r := by
  rcases s with _ | ⟨a, _ | ⟨b, _ | ⟨c, t⟩⟩⟩
  · simp [matchTicks3] at h
  · simp [matchTicks3] at h
  · simp [matchTicks3] at h
  · by_cases hc : a = tick ∧ b = tick ∧ c = tick
    · rw [show matchTicks3 (a :: b :: c :: t)
          = if a = tick ∧ b = tick ∧ c = tick then some t else none from rfl,
        if_pos hc] at h
      obtain ⟨h1, h2, h3⟩ := hc
      simp only [Option.some.injEq] at h
      rw [h1, h2, h3, h]
    · rw [show matchTicks3 (a :: b :: c :: t)
          = if a = tick ∧ b = tick ∧ c = tick then some t else none from rfl,
        if_neg hc] at h
      exact absurd h (by simp)

theorem matchClose_consume (s r : List Char) (h : matchClose s = some r) :
    ∃ u, s = u ++ r ∧ 4 ≤ u.length := by
  unfold matchClose at h
  split at h
  · have := matchTicks3_eq _ _ h
    exact ⟨['\n', '>', ' ', tick, tick, tick], by simp [this], by simp⟩
  · have := matchTicks3_eq _ _ h
    exact ⟨['\n', '>', tick, tick, tick], by simp [this], by simp⟩
  · have := matchTicks3_eq _ _ h
    exact ⟨['\n', ' ', tick, tick, tick], by simp [this], by simp⟩
  · have := matchTicks3_eq _ _ h
    exact ⟨['\n', tick, tick, tick], by simp [this], by simp⟩
  · exact absurd h (by simp)

theorem lazyClose_consume :
    ∀ s r, lazyClose s = some r → ∃ u, s = u ++ r ∧ 4 ≤ u.length := by
  intro s
  induction s with
  | nil => intro r h; simp [lazyClose] at h
  | cons c t ih =>
    intro r h
    rw [show lazyClose (c :: t)
        = (match matchClose (c :: t) with
           | some r2 => some r2
           | none => lazyClose t) from rfl] at h
    rcases hm : matchClose (c :: t) with _ | r2
    · rw [hm] at h
      obtain ⟨u, hu, hlen⟩ := ih r h
      exact ⟨c :: u, by simp [hu], by simp; omega⟩
    · rw [hm] at h
      simp only [Option.some.injEq] at h
      subst h
      exact matchClose_consume _ _ hm

theorem matchCodeBlock_consume (s t : List Char) (h : matchCodeBlock s = some t) :
    ∃ u, s = u ++ t ∧ 0 < u.length := by
  unfold matchCodeBlock at h
  split at h
  · exact absurd h (by simp)
  · rename_i r hticks
    split at h
    · rename_i r2 hdrop
      obtain ⟨u2, hu2, hlen2⟩ := lazyClose_consume r2 t h
      have hr := matchTicks3_eq s r hticks
      have hsplit : r = r.takeWhile isAsciiLetter ++ '\n' :: r2 := by
        rw [← hdrop]
        exact (List.takeWhile_append_dropWhile isAsciiLetter r).symm
      refine ⟨tick :: tick :: tick :: (r.takeWhile isAsciiLetter ++ '\n' :: u2), ?_, by simp⟩
      rw [hr]
      conv_lhs => rw [hsplit, hu2]
      simp [List.append_assoc]
    · exact absurd h (by simp)

theorem fixEscapesInText_nil : fixEscapesInText [] = [] := by decide

theorem fixOverEscapingF_fuel_irrelevant :
    ∀ fuel pending s, s.length < fuel →
      fixOverEscapingF fuel pending s = fixOverEscapingF (s.length + 1) pending s := by
  intro fuel
  induction fuel using Nat.strong_induction_on with
  | _ fuel ih =>
    intro pending s h
    match fuel, h with
    | f + 1, h =>
      rcases s with _ | ⟨c, t⟩
      · rfl
      · rw [show fixOverEscapingF (f + 1) pending (c :: t)
            = (match matchCodeBlock (c :: t) with
               | some rem =>
                 fixEscapesInText pending.reverse
                   ++ (c :: t).take ((c :: t).length - rem.length)
                   ++ fixOverEscapingF f [] rem
               | none => fixOverEscapingF f (c :: pending) t) from rfl]
        rw [show fixOverEscapingF ((c :: t).length + 1) pending (c :: t)
            = (match matchCodeBlock (c :: t) with
               | some rem =>
                 fixEscapesInText pending.reverse
                   ++ (c :: t).take ((c :: t).length - rem.length)
                   ++ fixOverEscapingF (c :: t).length [] rem
               | none => fixOverEscapingF (c :: t).length (c :: pending) t) from rfl]
        rcases hm : matchCodeBlock (c :: t) with _ | rem
        · simp only
          have ht : t.length < f := by
            simp only [List.length_cons] at h; omega
          rw [ih f (by omega) (c :: pending) t ht,
            ih (c :: t).length (by omega) (c :: pending) t (by simp)]
        · simp only
          obtain ⟨u, hu, hul⟩ := matchCodeBlock_consume _ _ hm
          have hrem : rem.length < (c :: t).length := by
            rw [hu]; simp only [List.length_append]; omega
          have h1 : rem.length < f := by
            simp only [List.length_cons] at h hrem ⊢; omega
          rw [ih f (by omega) [] rem h1,
            ih (c :: t).length (by omega) [] rem hrem]

/-- C3 (amended): the escape-collapsing pass (`fixOverEscaping`) copies
every fenced code region located by the code-block matcher to its
output byte-identically, processing only the text around it: whenever
the scanner stands at the start of a region, the region is emitted
verbatim and the pass continues after it.  (The checkbox, underscore,
and list-spacing passes run on the whole string, code regions included
— see the counterexample.) -/
theorem C3_escape_pass_copies_code_blocks (s t : List Char)
    (h : matchCodeBlock s = some t) :
    s = s.take (s.length - t.length) ++ t
      ∧ fixOverEscaping s = s.take (s.length - t.length) ++ fixOverEscaping t := by
  obtain ⟨u, hu, hul⟩ := matchCodeBlock_consume s t h
  have hlen : s.length - t.length = u.length := by
    rw [hu]; simp only [List.length_append]; omega
  have htake : s.take (s.length - t.length) = u := by
    rw [hlen, hu, List.take_left' rfl]
  constructor
  · rw [htake, ← hu]
  · rcases s with _ | ⟨c, t2⟩
    · simp [matchCodeBlock, matchTicks3] at h
    · unfold fixOverEscaping
      rw [show fixOverEscapingF ((c :: t2).length + 1) [] (c :: t2)
          = (match matchCodeBlock (c :: t2) with
             | some rem =>
               fixEscapesInText ([] : List Char).reverse
                 ++ (c :: t2).take ((c :: t2).length - rem.length)
                 ++ fixOverEscapingF (c :: t2).length [] rem
             | none => fixOverEscapingF (c :: t2).length [c] t2) from rfl,
        h]
      simp only [List.reverse_nil, fixEscapesInText_nil, List.nil_append]
      rw [htake]
      have htl : t.length < (c :: t2).length := by
        rw [hu]; simp only [List.length_append]; omega
      rw [fixOverEscapingF_fuel_irrelevant (c :: t2).length [] t htl]

theorem C3_escape_pass_copies_code_blocks_witness :
    matchCodeBlock ("```\nx\n```Q".toList) = some ("Q".toList)
      ∧ ("```\nx\n```Q".toList
          = List.take (("```\nx\n```Q".toList).length - ("Q".toList).length)
              ("```\nx\n```Q".toList) ++ "Q".toList
        ∧ fixOverEscaping ("```\nx\n```Q".toList)
          = List.take (("```\nx\n```Q".toList).length - ("Q".toList).length)
              ("```\nx\n```Q".toList) ++ fixOverEscaping ("Q".toList)) :=
  ⟨by decide,
   C3_escape_pass_copies_code_blocks ("```\nx\n```Q".toList) ("Q".toList) (by decide)⟩

/-- C3 counterexample: an input that is, in its entirety, one fenced
code region (the code-block matcher consumes all of it), yet the
normalization stage changes bytes inside it: the checkbox pass turns
`\[ ]` into `[ ]`, the underscore loop turns `a\_b` into `a_b`, and
the list-spacing pass removes the blank line before the indented `- x`
— so the region's content is not byte-identical in the output. -/
theorem C3_counterexample_code_content_altered :
    matchCodeBlock ("```\n\\[ ] a\\_b\n  \n  - x\n```".toList) = some []
      ∧ normalizeStage ("```\n\\[ ] a\\_b\n  \n  - x\n```".toList)
          = "```\n[ ] a_b\n  - x\n```".toList
      ∧ normalizeStage ("```\n\\[ ] a\\_b\n  \n  - x\n```".toList)
          ≠ "```\n\\[ ] a\\_b\n  \n  - x\n```".toList := by
  refine ⟨by decide, by decide, by decide⟩
